import Mathlib

/-!
Verification of the response-sanitization core of the `uwu` command generator.

The repository's core logic lives in `src/command_generator.ts` (functions
`lastMatched`, `findLastCommand`, `sanitizeResponse`) with an inlined copy of
`sanitizeResponse` in `index.ts`.  Strings are modelled as `List Char`; the
JavaScript regular expressions are modelled by hand-written matchers that
follow the (deterministic) behaviour of the concrete patterns used by the
source:

* `/<\s*think\b[^>]*>[\s\S]*?<\s*\/\s*think\s*>/gi`  (reasoning-trace strip)
* a triple-backtick fenced-code-block pattern with optional language tag,
  scanned with a global cursor (`lastMatched`)
* `/^[A-Z][\s\S]*[.?!]$/` and a case-insensitive whole-word keyword pattern
  (line classification in `findLastCommand`)

A thrown JavaScript `TypeError` (possible in `findLastCommand` on an empty
array) is modelled by `Option.none`.
-/

/-- The set of characters matched by the JavaScript `\s` class (and trimmed by
`String.prototype.trim`), identified by code point. -/
def isSpaceJS (c : Char) : Bool :=
  c.toNat = 32 || c.toNat = 9 || c.toNat = 10 || c.toNat = 11 || c.toNat = 12 ||
  c.toNat = 13 || c.toNat = 160 || c.toNat = 5760 ||
  (8192 ≤ c.toNat && c.toNat ≤ 8202) || c.toNat = 8232 || c.toNat = 8233 ||
  c.toNat = 8239 || c.toNat = 8287 || c.toNat = 12288 || c.toNat = 65279

/-- The characters matched by the JavaScript `\w` class: `[A-Za-z0-9_]`. -/
def isWordChar (c : Char) : Bool :=
  (65 ≤ c.toNat && c.toNat ≤ 90) || (97 ≤ c.toNat && c.toNat ≤ 122) ||
  (48 ≤ c.toNat && c.toNat ≤ 57) || c.toNat = 95

/-- The backtick character, U+0060. -/
def btick : Char := Char.ofNat 96

/-- The apostrophe character, U+0027. -/
def apos : Char := Char.ofNat 39

/-- The sentence-ending punctuation class `[.?!]` of the classifier regex. -/
def sentencePunct (c : Char) : Bool :=
  c = '.' || c = '?' || c = '!'

/-- Consume the literal word `w` from the front of `s`, comparing characters
case-insensitively (as the `i` regex flag does for ASCII); return the rest. -/
def eatCI : List Char → List Char → Option (List Char)
  | [], s => some s
  | _ :: _, [] => none
  | p :: ps, c :: cs => if c.toLower = p.toLower then eatCI ps cs else none

/-- Consume the literal characters `w` from the front of `s`; return the rest. -/
def eatExact : List Char → List Char → Option (List Char)
  | [], s => some s
  | _ :: _, [] => none
  | p :: ps, c :: cs => if c = p then eatExact ps cs else none

/-- Is the first character of `l` a word character?  (Used for the `\b`
word-boundary test after a matched token.) -/
def headIsWord (l : List Char) : Bool :=
  match l with
  | [] => false
  | c :: _ => isWordChar c

/-- Remove trailing JavaScript whitespace (half of `String.prototype.trim`). -/
def trimRight (l : List Char) : List Char :=
  (l.reverse.dropWhile isSpaceJS).reverse

/-- `String.prototype.trim`: remove leading and trailing whitespace. -/
def trimList (l : List Char) : List Char :=
  trimRight (l.dropWhile isSpaceJS)

/-- Prepend a character to the first piece of a split result. -/
def consHead (c : Char) : List (List Char) → List (List Char)
  | [] => [[c]]
  | l :: ls => (c :: l) :: ls

/-- Split on the newline character alone. -/
def splitNl : List Char → List (List Char)
  | [] => [[]]
  | c :: rest => if c = '\n' then [] :: splitNl rest else consHead c (splitNl rest)

/-- Remove a single trailing carriage return, if present. -/
def dropCR (l : List Char) : List Char :=
  match l.reverse with
  | [] => l
  | c :: t => if c = '\r' then t.reverse else l

/-- Apply `f` to every element except the last one. -/
def mapExceptLast (f : List Char → List Char) : List (List Char) → List (List Char)
  | [] => []
  | [l] => [l]
  | l :: l' :: ls => f l :: mapExceptLast f (l' :: ls)

/-- `content.split(/\r?\n/)`: split on newlines, where a carriage return
immediately preceding a consumed newline is consumed with it.  Equivalently:
split on `\n` and drop one trailing `\r` from every piece that was followed by
a newline (i.e. every piece except the last). -/
def splitLines (s : List Char) : List (List Char) :=
  mapExceptLast dropCR (splitNl s)

/-- The lowercase letters of the tag name `think`. -/
def thinkWord : List Char := ['t', 'h', 'i', 'n', 'k']

/-- Match the opening-tag pattern `<\s*think\b[^>]*>` (case-insensitive) at the
front of `s`; on success return the characters following the `>`. -/
def matchOpenTag (s : List Char) : Option (List Char) :=
  match s with
  | [] => none
  | c :: rest =>
    if c = '<' then
      match eatCI thinkWord (rest.dropWhile isSpaceJS) with
      | none => none
      | some r2 =>
        if headIsWord r2 then none
        else
          match r2.dropWhile (fun d => !decide (d = '>')) with
          | [] => none
          | d :: r3 => if d = '>' then some r3 else none
    else none

/-- Match the closing-tag pattern `<\s*/\s*think\s*>` (case-insensitive) at the
front of `s`; on success return the characters following the `>`. -/
def matchCloseTag (s : List Char) : Option (List Char) :=
  match s with
  | [] => none
  | c :: rest =>
    if c = '<' then
      match rest.dropWhile isSpaceJS with
      | [] => none
      | d :: r2 =>
        if d = '/' then
          match eatCI thinkWord (r2.dropWhile isSpaceJS) with
          | none => none
          | some r3 =>
            match r3.dropWhile isSpaceJS with
            | [] => none
            | e :: r4 => if e = '>' then some r4 else none
        else none
    else none

/-- Scan forward for the first position where the closing tag matches (the lazy
`[\s\S]*?` of the pattern); return the characters following that tag. -/
def findClose : List Char → Option (List Char)
  | [] => none
  | c :: t =>
    match matchCloseTag (c :: t) with
    | some r => some r
    | none => findClose t

/-- Fuelled worker for the global think-tag replacement: at each position, if a
full open-tag/close-tag span matches, drop it and continue after the span;
otherwise keep the character and continue.  `fuel` bounds the recursion; with
`fuel ≥ s.length` the result is fuel-independent. -/
def stripThinkF : Nat → List Char → List Char
  | 0, s => s
  | _ + 1, [] => []
  | fuel + 1, c :: rest =>
    match matchOpenTag (c :: rest) with
    | some afterOpen =>
      match findClose afterOpen with
      | some afterClose => stripThinkF fuel afterClose
      | none => c :: stripThinkF fuel rest
    | none => c :: stripThinkF fuel rest

/-- `content.replace(/<\s*think\b[^>]*>[\s\S]*?<\s*\/\s*think\s*>/gi, "")`. -/
def stripThink (s : List Char) : List Char :=
  stripThinkF s.length s

/-- The three backticks delimiting a fenced code block. -/
def fenceChars : List Char := [btick, btick, btick]

/-- Lazy scan for the closing triple backtick: return the (minimal) body up to
the first occurrence of three backticks, and the characters after them. -/
def bodyUntilFence : List Char → Option (List Char × List Char)
  | [] => none
  | c :: t =>
    match eatExact fenceChars (c :: t) with
    | some r => some ([], r)
    | none =>
      match bodyUntilFence t with
      | some (body, r) => some (c :: body, r)
      | none => none

/-- Match one fenced code block (the pattern three backticks, an optional
language tag up to the first newline, the newline, then a lazy body up to three
closing backticks) at the front of `s`; return the captured body and the
characters after the match. -/
def matchFence (s : List Char) : Option (List Char × List Char) :=
  match eatExact fenceChars s with
  | none => none
  | some r1 =>
    match r1.dropWhile (fun c => !decide (c = '\n')) with
    | [] => none
    | c :: r3 => if c = '\n' then bodyUntilFence r3 else none

/-- Fuelled worker for `lastMatched` on the code-block pattern: find all
non-overlapping fence matches left to right (the advancing `exec` cursor) and
return the captured body of the last one, if any. -/
def lastMatchedF : Nat → List Char → Option (List Char)
  | 0, _ => none
  | _ + 1, [] => none
  | fuel + 1, c :: t =>
    match matchFence (c :: t) with
    | some (body, rest) =>
      match lastMatchedF fuel rest with
      | some b => some b
      | none => some body
    | none => lastMatchedF fuel t

/-- `lastMatched(codeBlockRegex, content)` from `command_generator.ts`,
specialised to the code-block pattern the source uses it with. -/
def lastMatched (s : List Char) : Option (List Char) :=
  lastMatchedF s.length s

/-- The keyword list of the classifier regex
`(user|want|should|shouldn't|think|explain|error|note)`. -/
def sentenceWords : List (List Char) :=
  [['u', 's', 'e', 'r'],
   ['w', 'a', 'n', 't'],
   ['s', 'h', 'o', 'u', 'l', 'd'],
   ['s', 'h', 'o', 'u', 'l', 'd', 'n', apos, 't'],
   ['t', 'h', 'i', 'n', 'k'],
   ['e', 'x', 'p', 'l', 'a', 'i', 'n'],
   ['e', 'r', 'r', 'o', 'r'],
   ['n', 'o', 't', 'e']]

/-- Does the word `w` occur at the very front of `s`, case-insensitively and
followed by a word boundary? -/
def keywordAt (s w : List Char) : Bool :=
  match eatCI w s with
  | some rest => !headIsWord rest
  | none => false

/-- Does some keyword occur at the very front of `s` (with a word boundary
after it)? -/
def keywordHereAux (s : List Char) : Bool :=
  sentenceWords.any (keywordAt s)

/-- Scan `s` for a whole-word, case-insensitive keyword occurrence.  `prev`
records whether the character immediately before `s` is a word character (false
at the start of the line), which decides the leading `\b` boundary. -/
def containsKeywordFrom : Bool → List Char → Bool
  | prev, [] => !prev && keywordHereAux []
  | prev, c :: t => (!prev && keywordHereAux (c :: t)) || containsKeywordFrom (isWordChar c) t

/-- `/\b(user|want|should|shouldn't|think|explain|error|note)\b/i.test(line)`. -/
def containsKeyword (line : List Char) : Bool :=
  containsKeywordFrom false line

/-- `/^[A-Z][\s\S]*[.?!]$/.test(line)`: the line starts with an uppercase ASCII
letter and ends with `.`, `?` or `!` — where, per JavaScript `$` semantics
without the `m` flag, the end may also be just before a final newline. -/
def sentenceShape (line : List Char) : Bool :=
  match line with
  | [] => false
  | c :: _ =>
    c.isUpper &&
      (match line.reverse with
       | [] => false
       | d :: ds =>
         sentencePunct d ||
           (d = '\n' &&
             (match ds with
              | [] => false
              | e :: _ => sentencePunct e)))

/-- The per-line `looksLikeSentence` classification of `findLastCommand`. -/
def looksLikeSentence (line : List Char) : Bool :=
  sentenceShape line || containsKeyword line

/-- The acceptance condition of the backward scan: not a sentence, and at most
2000 characters long. -/
def goodLine (l : List Char) : Bool :=
  !looksLikeSentence l && decide (l.length ≤ 2000)

/-- The `for (let i = lines.length - 1; i >= 0; i--)` loop of
`findLastCommand`, expressed on the reversed list of lines. -/
def scanBack : List (List Char) → Option (List Char)
  | [] => none
  | l :: rest => if goodLine l then some (trimList l) else scanBack rest

/-- `findLastCommand` from `command_generator.ts`.  On an empty array the
source evaluates `lines.at(-1)!.trim()` with `lines.at(-1) === undefined`,
which throws a `TypeError`; the thrown exception is modelled by `none`. -/
def findLastCommand (lines : List (List Char)) : Option (List Char) :=
  match scanBack lines.reverse with
  | some r => some r
  | none => lines.getLast?.map trimList

/-- Stage 2 of `sanitizeResponse`:
`lastMatched(codeBlockRegex, s) || s.replace(/[backtick]/g, "")` — the captured
body of the last fenced block if that is a non-empty (truthy) string, otherwise
the input with every backtick character removed. -/
def stage2 (s : List Char) : List Char :=
  match lastMatched s with
  | some b => if b.isEmpty then s.filter (fun c => !decide (c = btick)) else b
  | none => s.filter (fun c => !decide (c = btick))

/-- The `lines` value of `sanitizeResponse`: split the text on line endings,
trim every line, and drop the empty ones (`filter(Boolean)`). -/
def linesOf (s : List Char) : List (List Char) :=
  ((splitLines s).map trimList).filter (fun l => !l.isEmpty)

/-- `sanitizeResponse` from `command_generator.ts`.  `none` models a thrown
exception (which in fact never occurs: see `sanitizeResponse_total`). -/
def sanitizeResponse (content : List Char) : Option (List Char) :=
  if content.isEmpty then some []
  else if (linesOf (stage2 (stripThink content))).isEmpty then some []
  else findLastCommand (linesOf (stage2 (stripThink content)))

namespace IndexTs

/-- The `while ((m = codeBlockRegex.exec(content)) !== null)` loop of the
inlined `sanitizeResponse` in `index.ts`: iterate the fence matcher with an
advancing cursor, remembering the last captured body in `acc`. -/
def lastCodeBlockLoopF : Nat → List Char → Option (List Char) → Option (List Char)
  | 0, _, acc => acc
  | _ + 1, [], acc => acc
  | fuel + 1, c :: t, acc =>
    match matchFence (c :: t) with
    | some (body, rest) => lastCodeBlockLoopF fuel rest (some body)
    | none => lastCodeBlockLoopF fuel t acc

/-- The `lastCodeBlock` value computed by the loop in `index.ts` (`null`
becomes `none`). -/
def lastCodeBlock (s : List Char) : Option (List Char) :=
  lastCodeBlockLoopF s.length s none

/-- Stage 2 as written in `index.ts`: `if (lastCodeBlock) { content =
lastCodeBlock; } else { content = content.replace(/[backtick]/g, ""); }`. -/
def stage2 (s : List Char) : List Char :=
  match lastCodeBlock s with
  | some b => if b.isEmpty then s.filter (fun c => !decide (c = btick)) else b
  | none => s.filter (fun c => !decide (c = btick))

/-- The inlined `sanitizeResponse` of `index.ts`: think-tag strip, explicit
last-code-block loop with `if (lastCodeBlock)` fallback, line split / trim /
filter, then the same backward line scan, with the final
`lines[lines.length - 1].trim()` fallback. -/
def sanitizeResponse (content : List Char) : Option (List Char) :=
  if content.isEmpty then some []
  else if (linesOf (IndexTs.stage2 (stripThink content))).isEmpty then some []
  else
    match scanBack (linesOf (IndexTs.stage2 (stripThink content))).reverse with
    | some r => some r
    | none => (linesOf (IndexTs.stage2 (stripThink content))).getLast?.map trimList

end IndexTs

/-! ## Basic lemmas about the character-level matchers -/

theorem eatCI_append : ∀ (w occ r : List Char),
    occ.map Char.toLower = w.map Char.toLower → eatCI w (occ ++ r) = some r
  | [], [], _, _ => rfl
  | [], _ :: _, _, h => by simp at h
  | _ :: _, [], _, h => by simp at h
  | p :: ps, c :: occ, r, h => by
    simp only [List.map_cons, List.cons.injEq] at h
    simp only [List.cons_append, eatCI, h.1, if_true]
    exact eatCI_append ps occ r h.2

theorem eatCI_eq_some_iff : ∀ (w s r : List Char),
    eatCI w s = some r ↔ ∃ occ, s = occ ++ r ∧ occ.map Char.toLower = w.map Char.toLower
  | [], s, r => by
    constructor
    · intro h
      exact ⟨[], by simpa [eatCI] using h, by simp⟩
    · rintro ⟨occ, hs, hm⟩
      have : occ = [] := by simpa using hm
      subst this
      simpa [eatCI] using hs
  | _ :: _, [], r => by
    constructor
    · intro h
      simp [eatCI] at h
    · rintro ⟨occ, hs, hm⟩
      rcases occ with _ | ⟨c, occ⟩
      · simp at hm
      · simp at hs
  | p :: ps, c :: cs, r => by
    constructor
    · intro h
      by_cases hc : c.toLower = p.toLower
      · simp only [eatCI, hc, if_true] at h
        rcases (eatCI_eq_some_iff ps cs r).1 h with ⟨occ, hs, hm⟩
        exact ⟨c :: occ, by simp [hs], by simp [hm, hc]⟩
      · simp [eatCI, hc] at h
    · rintro ⟨occ, hs, hm⟩
      rcases occ with _ | ⟨c0, occ⟩
      · simp at hm
      · simp only [List.cons_append, List.cons.injEq] at hs
        simp only [List.map_cons, List.cons.injEq] at hm
        rcases hs with ⟨hc0, hcs⟩
        subst hc0
        simp only [eatCI, hm.1, if_true]
        exact (eatCI_eq_some_iff ps cs r).2 ⟨occ, hcs, hm.2⟩

theorem eatCI_length : ∀ (w s r : List Char), eatCI w s = some r → r.length ≤ s.length := by
  intro w s r h
  rcases (eatCI_eq_some_iff w s r).1 h with ⟨occ, hs, _⟩
  subst hs
  simp

theorem eatCI_drop : ∀ (w s r : List Char), eatCI w s = some r → ∃ k, r = s.drop k := by
  intro w s r h
  rcases (eatCI_eq_some_iff w s r).1 h with ⟨occ, hs, _⟩
  exact ⟨occ.length, by simp [hs]⟩

theorem dropWhile_eq_drop (p : Char → Bool) : ∀ l : List Char, ∃ k, l.dropWhile p = l.drop k := by
  intro l
  induction l with
  | nil => exact ⟨0, rfl⟩
  | cons c t ih =>
    by_cases hc : p c
    · rcases ih with ⟨k, hk⟩
      exact ⟨k + 1, by simp [List.dropWhile_cons, hc, hk]⟩
    · exact ⟨0, by simp [List.dropWhile_cons, hc]⟩

theorem length_dropWhile_le (p : Char → Bool) (l : List Char) :
    (l.dropWhile p).length ≤ l.length :=
  (List.dropWhile_sublist p).length_le

theorem matchOpenTag_nil : matchOpenTag [] = none := rfl

theorem matchOpenTag_cons_ne {c : Char} {t : List Char} (hc : ¬c = '<') :
    matchOpenTag (c :: t) = none := by
  simp [matchOpenTag, hc]

theorem matchCloseTag_nil : matchCloseTag [] = none := rfl

theorem matchCloseTag_cons_ne {c : Char} {t : List Char} (hc : ¬c = '<') :
    matchCloseTag (c :: t) = none := by
  simp [matchCloseTag, hc]

theorem matchOpenTag_length {s r : List Char} (h : matchOpenTag s = some r) :
    r.length < s.length := by
  rcases s with _ | ⟨c, rest⟩
  · exact absurd h (by simp [matchOpenTag])
  · simp only [matchOpenTag] at h
    split at h
    · split at h
      · exact absurd h (by simp)
      · rename_i r2 he2
        split at h
        · exact absurd h (by simp)
        · split at h
          · exact absurd h (by simp)
          · rename_i d r3 hd3
            split at h
            · obtain rfl : r3 = r := by injection h
              have h1 : r3.length + 1 ≤ (r2.dropWhile (fun d => !decide (d = '>'))).length := by
                rw [hd3]; simp
              have h2 : (r2.dropWhile (fun d => !decide (d = '>'))).length ≤ r2.length :=
                length_dropWhile_le _ _
              have h3 : r2.length ≤ (rest.dropWhile isSpaceJS).length :=
                eatCI_length _ _ _ he2
              have h4 : (rest.dropWhile isSpaceJS).length ≤ rest.length :=
                length_dropWhile_le _ _
              simp only [List.length_cons]
              omega
            · exact absurd h (by simp)
    · exact absurd h (by simp)

theorem matchCloseTag_length {s r : List Char} (h : matchCloseTag s = some r) :
    r.length < s.length := by
  rcases s with _ | ⟨c, rest⟩
  · exact absurd h (by simp [matchCloseTag])
  · simp only [matchCloseTag] at h
    split at h
    · split at h
      · exact absurd h (by simp)
      · rename_i d r2 hd2
        split at h
        · split at h
          · exact absurd h (by simp)
          · rename_i r3 he3
            split at h
            · exact absurd h (by simp)
            · rename_i e r4 he4
              split at h
              · obtain rfl : r4 = r := by injection h
                have h1 : r4.length + 1 ≤ (r3.dropWhile isSpaceJS).length := by
                  rw [he4]; simp
                have h2 : (r3.dropWhile isSpaceJS).length ≤ r3.length :=
                  length_dropWhile_le _ _
                have h3 : r3.length ≤ (r2.dropWhile isSpaceJS).length :=
                  eatCI_length _ _ _ he3
                have h4 : (r2.dropWhile isSpaceJS).length ≤ r2.length :=
                  length_dropWhile_le _ _
                have h5 : r2.length + 1 ≤ (rest.dropWhile isSpaceJS).length := by
                  rw [hd2]; simp
                have h6 : (rest.dropWhile isSpaceJS).length ≤ rest.length :=
                  length_dropWhile_le _ _
                simp only [List.length_cons]
                omega
              · exact absurd h (by simp)
        · exact absurd h (by simp)
    · exact absurd h (by simp)

theorem matchOpenTag_drop {s r : List Char} (h : matchOpenTag s = some r) :
    ∃ k, r = s.drop k := by
  rcases s with _ | ⟨c, rest⟩
  · exact absurd h (by simp [matchOpenTag])
  · simp only [matchOpenTag] at h
    split at h
    · rename_i hc
      subst hc
      split at h
      · exact absurd h (by simp)
      · rename_i r2 he2
        split at h
        · exact absurd h (by simp)
        · split at h
          · exact absurd h (by simp)
          · rename_i d r3 hd3
            split at h
            · obtain rfl : r3 = r := by injection h
              rcases dropWhile_eq_drop isSpaceJS rest with ⟨k1, hk1⟩
              rcases eatCI_drop _ _ _ he2 with ⟨k2, hk2⟩
              rcases dropWhile_eq_drop (fun d => !decide (d = '>')) r2 with ⟨k3, hk3⟩
              refine ⟨1 + (k1 + (k2 + (k3 + 1))), ?_⟩
              have hr : r3 = r2.drop (k3 + 1) := by
                have hdr : d :: r3 = r2.drop k3 := by rw [← hk3, hd3]
                calc r3 = (d :: r3).drop 1 := rfl
                _ = (r2.drop k3).drop 1 := by rw [hdr]
                _ = r2.drop (k3 + 1) := by rw [List.drop_drop]
              rw [hr, hk2, hk1]
              simp only [List.drop_drop]
              have he : 1 + (k1 + (k2 + (k3 + 1))) = (k1 + (k2 + (k3 + 1))) + 1 := by omega
              rw [he, List.drop_succ_cons]
              have he2 : k1 + k2 + (k3 + 1) = k1 + (k2 + (k3 + 1)) := by omega
              rw [he2]
            · exact absurd h (by simp)
    · exact absurd h (by simp)

theorem stripThinkF_cons_no_open {c : Char} {rest : List Char} (f : Nat)
    (h : matchOpenTag (c :: rest) = none) :
    stripThinkF (f + 1) (c :: rest) = c :: stripThinkF f rest := by
  simp only [stripThinkF, h]

theorem stripThinkF_cons_close {c : Char} {rest a b : List Char} (f : Nat)
    (ho : matchOpenTag (c :: rest) = some a) (hc : findClose a = some b) :
    stripThinkF (f + 1) (c :: rest) = stripThinkF f b := by
  simp only [stripThinkF, ho, hc]

theorem stripThinkF_cons_noclose {c : Char} {rest a : List Char} (f : Nat)
    (ho : matchOpenTag (c :: rest) = some a) (hc : findClose a = none) :
    stripThinkF (f + 1) (c :: rest) = c :: stripThinkF f rest := by
  simp only [stripThinkF, ho, hc]

theorem findClose_length : ∀ {s r : List Char}, findClose s = some r → r.length < s.length := by
  intro s
  induction s with
  | nil => intro r h; exact absurd h (by simp [findClose])
  | cons c t ih =>
    intro r h
    simp only [findClose] at h
    split at h
    · rename_i r' hm
      obtain rfl : r' = r := by injection h
      exact matchCloseTag_length hm
    · have := ih h
      simp only [List.length_cons]
      omega

theorem findClose_none : ∀ s : List Char, (∀ i, matchCloseTag (s.drop i) = none) →
    findClose s = none := by
  intro s
  induction s with
  | nil => intro _; rfl
  | cons c t ih =>
    intro h
    have h0 := h 0
    simp only [List.drop_zero] at h0
    simp only [findClose, h0]
    exact ih (fun i => h (i + 1))

theorem stripThinkF_congr : ∀ (f g : Nat) (s : List Char),
    s.length ≤ f → s.length ≤ g → stripThinkF f s = stripThinkF g s := by
  intro f
  induction f with
  | zero =>
    intro g s hf _
    have : s = [] := List.length_eq_zero.1 (Nat.le_zero.1 hf)
    subst this
    cases g <;> rfl
  | succ f ih =>
    intro g s hf hg
    rcases s with _ | ⟨c, rest⟩
    · cases g <;> rfl
    · rcases g with _ | g
      · exact absurd hg (by simp)
      · have hf' : rest.length + 1 ≤ f + 1 := by simpa using hf
        have hg' : rest.length + 1 ≤ g + 1 := by simpa using hg
        rcases ho : matchOpenTag (c :: rest) with _ | a
        · rw [stripThinkF_cons_no_open f ho, stripThinkF_cons_no_open g ho,
            ih g rest (by omega) (by omega)]
        · rcases hc : findClose a with _ | b
          · rw [stripThinkF_cons_noclose f ho hc, stripThinkF_cons_noclose g ho hc,
              ih g rest (by omega) (by omega)]
          · have hb : b.length < rest.length + 1 := by
              have h1 := findClose_length hc
              have h2 := matchOpenTag_length ho
              simp only [List.length_cons] at h2
              omega
            rw [stripThinkF_cons_close f ho hc, stripThinkF_cons_close g ho hc,
              ih g b (by omega) (by omega)]

theorem stripThinkF_no_open : ∀ (f : Nat) (s : List Char),
    (∀ i, matchOpenTag (s.drop i) = none) → stripThinkF f s = s := by
  intro f
  induction f with
  | zero => intro s _; rfl
  | succ f ih =>
    intro s h
    rcases s with _ | ⟨c, rest⟩
    · rfl
    · have h0 := h 0
      simp only [List.drop_zero] at h0
      rw [stripThinkF_cons_no_open f h0, ih rest (fun i => h (i + 1))]

theorem stripThinkF_no_close : ∀ (f : Nat) (s : List Char),
    (∀ i, matchCloseTag (s.drop i) = none) → stripThinkF f s = s := by
  intro f
  induction f with
  | zero => intro s _; rfl
  | succ f ih =>
    intro s h
    rcases s with _ | ⟨c, rest⟩
    · rfl
    · rcases ho : matchOpenTag (c :: rest) with _ | a
      · rw [stripThinkF_cons_no_open f ho, ih rest (fun i => h (i + 1))]
      · rcases matchOpenTag_drop ho with ⟨k, hk⟩
        have hfc : findClose a = none := by
          refine findClose_none a (fun i => ?_)
          rw [hk, List.drop_drop]
          exact h (k + i)
        rw [stripThinkF_cons_noclose f ho hfc, ih rest (fun i => h (i + 1))]

theorem stripThinkF_append : ∀ (u : List Char) (f : Nat) (v : List Char),
    (∀ c ∈ u, ¬(c = '<')) → (u ++ v).length ≤ f →
    stripThinkF f (u ++ v) = u ++ stripThinkF (f - u.length) v := by
  intro u
  induction u with
  | nil => intro f v _ _; simp
  | cons c u ih =>
    intro f v hu hf
    rcases f with _ | f
    · exact absurd hf (by simp)
    · have hc : ¬(c = '<') := hu c (by simp)
      have hlen : (u ++ v).length ≤ f := by
        simp only [List.cons_append, List.length_cons] at hf
        simpa using hf
      calc stripThinkF (f + 1) ((c :: u) ++ v)
          = c :: stripThinkF f (u ++ v) := by
            rw [List.cons_append]
            exact stripThinkF_cons_no_open f (matchOpenTag_cons_ne hc)
        _ = c :: (u ++ stripThinkF (f - u.length) v) := by
            rw [ih f v (fun d hd => hu d (by simp [hd])) hlen]
        _ = (c :: u) ++ stripThinkF (f + 1 - (c :: u).length) v := by
            simp only [List.cons_append, List.length_cons, List.cons.injEq, true_and]
            congr 2
            omega

theorem stripThink_append_no_lt (u v : List Char) (hu : ∀ c ∈ u, ¬(c = '<')) :
    stripThink (u ++ v) = u ++ stripThink v := by
  unfold stripThink
  rw [stripThinkF_append u ((u ++ v).length) v hu (le_refl _)]
  congr 1
  apply stripThinkF_congr
  · simp
  · exact le_refl _

theorem toLower_of_space {c : Char} (h : isSpaceJS c = true) : Char.toLower c = c := by
  have hn : ¬(c.toNat ≥ 65 ∧ c.toNat ≤ 90) := by
    simp only [isSpaceJS, Bool.or_eq_true, decide_eq_true_eq, Bool.and_eq_true] at h
    omega
  simp [Char.toLower, hn]

theorem think_name_head {nm : List Char} (h : nm.map Char.toLower = thinkWord) :
    ∃ c t, nm = c :: t ∧ isSpaceJS c = false := by
  rcases nm with _ | ⟨c, t⟩
  · simp [thinkWord] at h
  · refine ⟨c, t, rfl, ?_⟩
    simp only [List.map_cons, thinkWord, List.cons.injEq] at h
    by_contra hsp
    have hsp' : isSpaceJS c = true := by
      cases hval : isSpaceJS c
      · exact absurd hval hsp
      · rfl
    have hfix := toLower_of_space hsp'
    rw [hfix] at h
    rw [h.1] at hsp'
    exact absurd hsp' (by decide)

theorem matchOpenTag_tag (sp1 nm attrs rest : List Char)
    (hsp : ∀ c ∈ sp1, isSpaceJS c = true)
    (hnm : nm.map Char.toLower = thinkWord)
    (hat : ∀ c ∈ attrs, ¬(c = '>'))
    (hah : headIsWord attrs = false) :
    matchOpenTag ('<' :: (sp1 ++ (nm ++ (attrs ++ '>' :: rest)))) = some rest := by
  rcases think_name_head hnm with ⟨c0, t0, hnm0, hc0⟩
  have hdw : (sp1 ++ (nm ++ (attrs ++ '>' :: rest))).dropWhile isSpaceJS =
      nm ++ (attrs ++ '>' :: rest) := by
    rw [List.dropWhile_append_of_pos hsp, hnm0, List.cons_append, List.dropWhile_cons,
      hc0]
    simp
  have heat : eatCI thinkWord (nm ++ (attrs ++ '>' :: rest)) = some (attrs ++ '>' :: rest) := by
    apply eatCI_append
    rw [hnm]
    decide
  have hhw : headIsWord (attrs ++ '>' :: rest) = false := by
    rcases attrs with _ | ⟨a, as⟩
    · simp [headIsWord]
      decide
    · simp only [List.cons_append, headIsWord]
      simpa [headIsWord] using hah
  have hdw2 : (attrs ++ '>' :: rest).dropWhile (fun d => !decide (d = '>')) = '>' :: rest := by
    rw [List.dropWhile_append_of_pos (by
      intro a ha
      simp [hat a ha]), List.dropWhile_cons]
    simp
  simp only [matchOpenTag, if_pos rfl, hdw, heat, hhw, Bool.false_eq_true, if_false, hdw2]
  simp

theorem matchCloseTag_tag (sp1 sp2 nm sp3 rest : List Char)
    (hsp1 : ∀ c ∈ sp1, isSpaceJS c = true)
    (hsp2 : ∀ c ∈ sp2, isSpaceJS c = true)
    (hnm : nm.map Char.toLower = thinkWord)
    (hsp3 : ∀ c ∈ sp3, isSpaceJS c = true) :
    matchCloseTag ('<' :: (sp1 ++ '/' :: (sp2 ++ (nm ++ (sp3 ++ '>' :: rest))))) = some rest := by
  rcases think_name_head hnm with ⟨c0, t0, hnm0, hc0⟩
  have hdw1 : (sp1 ++ '/' :: (sp2 ++ (nm ++ (sp3 ++ '>' :: rest)))).dropWhile isSpaceJS =
      '/' :: (sp2 ++ (nm ++ (sp3 ++ '>' :: rest))) := by
    have hslash : isSpaceJS '/' = false := by decide
    rw [List.dropWhile_append_of_pos hsp1, List.dropWhile_cons]
    simp [hslash]
  have hdw2 : (sp2 ++ (nm ++ (sp3 ++ '>' :: rest))).dropWhile isSpaceJS =
      nm ++ (sp3 ++ '>' :: rest) := by
    rw [List.dropWhile_append_of_pos hsp2, hnm0, List.cons_append, List.dropWhile_cons, hc0]
    simp
  have heat : eatCI thinkWord (nm ++ (sp3 ++ '>' :: rest)) = some (sp3 ++ '>' :: rest) := by
    apply eatCI_append
    rw [hnm]
    decide
  have hdw3 : (sp3 ++ '>' :: rest).dropWhile isSpaceJS = '>' :: rest := by
    have hgt : isSpaceJS '>' = false := by decide
    rw [List.dropWhile_append_of_pos hsp3, List.dropWhile_cons]
    simp [hgt]
  simp only [matchCloseTag, if_pos rfl, hdw1, hdw2, heat, hdw3]
  simp

theorem findClose_append_no_lt (body x : List Char) (hb : ∀ c ∈ body, ¬(c = '<')) :
    findClose (body ++ x) = findClose x := by
  induction body with
  | nil => simp
  | cons c b ih =>
    have hc : ¬(c = '<') := hb c (by simp)
    simp only [List.cons_append, findClose, matchCloseTag_cons_ne hc]
    exact ih (fun d hd => hb d (by simp [hd]))

theorem stripThink_block (sp1 nm attrs body sp2 sp3 nm2 sp4 rest : List Char)
    (hsp1 : ∀ c ∈ sp1, isSpaceJS c = true)
    (hnm : nm.map Char.toLower = thinkWord)
    (hat : ∀ c ∈ attrs, ¬(c = '>'))
    (hah : headIsWord attrs = false)
    (hbody : ∀ c ∈ body, ¬(c = '<'))
    (hsp2 : ∀ c ∈ sp2, isSpaceJS c = true)
    (hnm2 : nm2.map Char.toLower = thinkWord)
    (hsp3 : ∀ c ∈ sp3, isSpaceJS c = true)
    (hsp4 : ∀ c ∈ sp4, isSpaceJS c = true) :
    stripThink ('<' :: (sp1 ++ (nm ++ (attrs ++ '>' ::
        (body ++ ('<' :: (sp2 ++ '/' :: (sp3 ++ (nm2 ++ (sp4 ++ '>' :: rest)))))))))) =
      stripThink rest := by
  have hopen := matchOpenTag_tag sp1 nm attrs
    (body ++ ('<' :: (sp2 ++ '/' :: (sp3 ++ (nm2 ++ (sp4 ++ '>' :: rest)))))) hsp1 hnm hat hah
  have hct := matchCloseTag_tag sp2 sp3 nm2 sp4 rest hsp2 hsp3 hnm2 hsp4
  have hfc : findClose (body ++ ('<' :: (sp2 ++ '/' :: (sp3 ++ (nm2 ++ (sp4 ++ '>' :: rest))))))
      = some rest := by
    rw [findClose_append_no_lt body _ hbody]
    simp only [findClose, hct]
  have hlen1 := matchOpenTag_length hopen
  have hlen2 := findClose_length hfc
  unfold stripThink
  simp only [List.length_cons]
  rw [stripThinkF_cons_close _ hopen hfc]
  apply stripThinkF_congr
  · simp only [List.length_cons] at hlen1
    omega
  · exact le_refl _

theorem noCloseAll_to_forall {s : List Char}
    (h : ((List.range (s.length + 1)).all fun i => (matchCloseTag (s.drop i)).isNone) = true) :
    ∀ i, matchCloseTag (s.drop i) = none := by
  intro i
  by_cases hi : i ≤ s.length
  · have := List.all_eq_true.1 h i (List.mem_range.2 (by omega))
    simpa [Option.isNone_iff_eq_none] using this
  · rw [List.drop_eq_nil_of_le (by omega)]
    rfl

theorem noOpenAll_to_forall {s : List Char}
    (h : ((List.range (s.length + 1)).all fun i => (matchOpenTag (s.drop i)).isNone) = true) :
    ∀ i, matchOpenTag (s.drop i) = none := by
  intro i
  by_cases hi : i ≤ s.length
  · have := List.all_eq_true.1 h i (List.mem_range.2 (by omega))
    simpa [Option.isNone_iff_eq_none] using this
  · rw [List.drop_eq_nil_of_le (by omega)]
    rfl

/-- C5: the reasoning-trace stripper removes every span from an opening tag
named think (case-insensitive name, optional attributes, optional whitespace
inside the brackets, spanning line boundaries) through the first matching
closing tag, tags included, handling the pairs independently left to right;
when no closing tag ever matches, nothing is removed (an unmatched opening tag
is left untouched), and input with no opening tag at any position is returned
unchanged. -/
theorem stripThink_spec :
    (∀ u sp1 nm attrs body sp2 sp3 nm2 sp4 rest : List Char,
      (∀ c ∈ u, ¬(c = '<')) →
      (∀ c ∈ sp1, isSpaceJS c = true) →
      nm.map Char.toLower = thinkWord →
      (∀ c ∈ attrs, ¬(c = '>')) →
      headIsWord attrs = false →
      (∀ c ∈ body, ¬(c = '<')) →
      (∀ c ∈ sp2, isSpaceJS c = true) →
      nm2.map Char.toLower = thinkWord →
      (∀ c ∈ sp3, isSpaceJS c = true) →
      (∀ c ∈ sp4, isSpaceJS c = true) →
      stripThink (u ++ ('<' :: (sp1 ++ (nm ++ (attrs ++ '>' ::
          (body ++ ('<' :: (sp2 ++ '/' :: (sp3 ++ (nm2 ++ (sp4 ++ '>' :: rest)))))))))))
        = u ++ stripThink rest) ∧
    (∀ s : List Char,
      ((List.range (s.length + 1)).all fun i => (matchCloseTag (s.drop i)).isNone) = true →
      stripThink s = s) ∧
    (∀ s : List Char,
      ((List.range (s.length + 1)).all fun i => (matchOpenTag (s.drop i)).isNone) = true →
      stripThink s = s) := by
  refine ⟨?_, ?_, ?_⟩
  · intro u sp1 nm attrs body sp2 sp3 nm2 sp4 rest hu hsp1 hnm hat hah hbody hsp2 hnm2 hsp3 hsp4
    rw [stripThink_append_no_lt u _ hu,
      stripThink_block sp1 nm attrs body sp2 sp3 nm2 sp4 rest hsp1 hnm hat hah hbody hsp2 hnm2
        hsp3 hsp4]
  · intro s h
    exact stripThinkF_no_close s.length s (noCloseAll_to_forall h)
  · intro s h
    exact stripThinkF_no_open s.length s (noOpenAll_to_forall h)

/-- Witness for C5: a concrete mixed-case tagged block with attributes and
whitespace inside the closing tag is removed, and two concrete tag-free inputs
are returned unchanged. -/
theorem stripThink_spec_witness :
    stripThink ("x: ".toList ++ ('<' :: ([] ++ ("THiNK".toList ++ (" a=1".toList ++ '>' ::
        ("secret".toList ++ ('<' :: ([] ++ '/' :: ([' '] ++ ("think".toList ++
          ([' '] ++ '>' :: "ls".toList)))))))))))
      = "x: ".toList ++ stripThink "ls".toList ∧
    stripThink "a<think>never closed".toList = "a<think>never closed".toList :=
  ⟨stripThink_spec.1 "x: ".toList [] "THiNK".toList " a=1".toList "secret".toList []
      [' '] "think".toList [' '] "ls".toList
      (by decide) (by decide) (by decide) (by decide) (by decide) (by decide) (by decide)
      (by decide) (by decide) (by decide),
    stripThink_spec.2.1 "a<think>never closed".toList (by decide)⟩

/-! ## The backward line scan -/

theorem scanBack_eq (ls : List (List Char)) :
    scanBack ls = (ls.find? goodLine).map trimList := by
  induction ls with
  | nil => rfl
  | cons l rest ih =>
    by_cases hg : goodLine l
    · simp [scanBack, hg, List.find?_cons_of_pos _ hg]
    · simp [scanBack, hg, List.find?_cons_of_neg _ hg, ih]

/-- C1: the repository's own test suite asserts
`findLastCommand([]) === ""`, but on the empty array the source reaches
`lines.at(-1)!.trim()` with `lines.at(-1)` undefined and throws a `TypeError`
(modelled by `none`) instead of returning the empty string. -/
theorem findLastCommand_nil_none :
    findLastCommand ([] : List (List Char)) = none := rfl

/-- C3: on a non-empty list of lines, `findLastCommand` returns `some` result;
the result is the trimmed first line, scanning from the last index downward,
that is not classified as a sentence and has length at most 2000 (the backward
scan is `find?` on the reversed list); and when no line qualifies, it is the
trimmed last line of the list. -/
theorem findLastCommand_spec (lines : List (List Char)) (h : ¬(lines = [])) :
    (findLastCommand lines).isSome = true ∧
    (∀ l, lines.reverse.find? goodLine = some l → findLastCommand lines = some (trimList l)) ∧
    (lines.reverse.find? goodLine = none →
      ∃ last, lines.getLast? = some last ∧ findLastCommand lines = some (trimList last)) := by
  have hsome : lines.getLast?.isSome := List.getLast?_isSome.2 h
  rcases Option.isSome_iff_exists.1 hsome with ⟨last, hlast⟩
  rcases hfind : lines.reverse.find? goodLine with _ | l
  · have hfl : findLastCommand lines = some (trimList last) := by
      unfold findLastCommand
      rw [scanBack_eq, hfind]
      simp [hlast]
    refine ⟨by simp [hfl], ?_, fun _ => ⟨last, hlast, hfl⟩⟩
    intro l hl
    exact absurd hl (by simp)
  · have hfl : findLastCommand lines = some (trimList l) := by
      unfold findLastCommand
      rw [scanBack_eq, hfind]
      simp
    refine ⟨by simp [hfl], ?_, ?_⟩
    · intro l' hl'
      obtain rfl : l = l' := by injection hl'
      exact hfl
    · intro hc
      exact absurd hc (by simp)

/-- Witness for C3: on the singleton list containing the line `ls`, the
backward scan accepts the line and the function returns it trimmed. -/
theorem findLastCommand_spec_witness :
    findLastCommand [['l', 's']] = some (trimList ['l', 's']) :=
  (findLastCommand_spec [['l', 's']] (by decide)).2.1 ['l', 's'] (by decide)

/-- C7: `sanitizeResponse` never throws: it returns `some` string on every
input, and on the empty (falsy) input it returns the empty string immediately. -/
theorem sanitizeResponse_total :
    (∀ s : List Char, ∃ r, sanitizeResponse s = some r) ∧
    sanitizeResponse [] = some [] := by
  constructor
  · intro s
    unfold sanitizeResponse
    by_cases hs : s.isEmpty
    · rw [if_pos hs]
      exact ⟨[], rfl⟩
    · rw [if_neg hs]
      by_cases hl : (linesOf (stage2 (stripThink s))).isEmpty
      · rw [if_pos hl]
        exact ⟨[], rfl⟩
      · rw [if_neg hl]
        have hne : ¬(linesOf (stage2 (stripThink s)) = []) := by
          simpa [List.isEmpty_iff] using hl
        rcases Option.isSome_iff_exists.1 ((findLastCommand_spec _ hne).1) with ⟨r, hr⟩
        exact ⟨r, hr⟩
  · rfl

/-! ## Stage 2: code-fence extraction with backtick-stripping fallback -/

/-- A concrete input containing exactly one fenced code block whose captured
body is the empty string: the character `a`, a newline, and an empty fence. -/
def fenceEmptyInput : List Char := 'a' :: '\n' :: (fenceChars ++ '\n' :: fenceChars)

/-- Counterexample for C2 as stated: `fenceEmptyInput` contains a fenced code
block (the extractor returns a captured body, namely the empty string), yet the
stage-2 result is the backtick-stripped input, not the captured body — because
the JavaScript `||` fallback also fires on the falsy empty capture. -/
theorem stage2_last_capture_empty_cex :
    lastMatched fenceEmptyInput = some [] ∧
    stage2 fenceEmptyInput = ['a', '\n', '\n'] ∧
    ¬(stage2 fenceEmptyInput = []) := by decide

/-- C2 (amended): the backtick-stripping fallback is applied iff the input has
no fenced code block or the captured body of the last fenced block is the empty
string; whenever that last captured body is non-empty, the stage-2 result is
exactly that body. -/
theorem stage2_characterization (s : List Char) :
    ((lastMatched s = none ∨ lastMatched s = some []) →
      stage2 s = s.filter (fun c => !decide (c = btick))) ∧
    (∀ body, lastMatched s = some body → ¬(body = []) → stage2 s = body) := by
  constructor
  · intro h
    rcases h with h | h <;> simp [stage2, h]
  · intro body h hne
    simp [stage2, h, hne]

/-- Witness for C2 (amended): on a fence containing the line `ls`, stage 2
returns the captured body of the fenced block. -/
theorem stage2_characterization_witness :
    stage2 (fenceChars ++ '\n' :: ('l' :: 's' :: '\n' :: fenceChars)) = ['l', 's', '\n'] :=
  (stage2_characterization (fenceChars ++ '\n' :: ('l' :: 's' :: '\n' :: fenceChars))).2
    ['l', 's', '\n'] (by decide) (by decide)

/-! ## Line splitting, trimming, and membership facts -/

theorem mem_splitNl_no_nl : ∀ (s : List Char), ∀ l ∈ splitNl s, ¬('\n' ∈ l) := by
  intro s
  induction s with
  | nil =>
    intro l hl
    simp only [splitNl, List.mem_singleton] at hl
    simp [hl]
  | cons c rest ih =>
    intro l hl
    by_cases hc : c = '\n'
    · rw [splitNl, if_pos hc] at hl
      rcases List.mem_cons.1 hl with rfl | hl'
      · simp
      · exact ih l hl'
    · rw [splitNl, if_neg hc] at hl
      rcases hsp : splitNl rest with _ | ⟨p, ps⟩
      · rw [hsp] at hl
        simp only [consHead, List.mem_singleton] at hl
        subst hl
        simpa using fun h => hc h.symm
      · rw [hsp] at hl
        simp only [consHead] at hl
        rcases List.mem_cons.1 hl with rfl | hl'
        · intro hmem
          rcases List.mem_cons.1 hmem with h1 | h1
          · exact hc h1.symm
          · exact ih p (by rw [hsp]; simp) h1
        · exact ih l (by rw [hsp]; simp [hl'])

theorem splitNl_no_nl : ∀ (s : List Char), ¬('\n' ∈ s) → splitNl s = [s] := by
  intro s
  induction s with
  | nil => intro _; rfl
  | cons c rest ih =>
    intro h
    have hc : ¬(c = '\n') := fun hc => h (by simp [hc])
    rw [splitNl, if_neg hc, ih (fun hm => h (by simp [hm]))]
    rfl

theorem mem_mapExceptLast (f : List Char → List Char) :
    ∀ (ls : List (List Char)) (x), x ∈ mapExceptLast f ls → ∃ y ∈ ls, x = f y ∨ x = y := by
  intro ls
  induction ls with
  | nil => intro x hx; simp [mapExceptLast] at hx
  | cons l ls ih =>
    intro x hx
    rcases ls with _ | ⟨l', ls'⟩
    · simp only [mapExceptLast, List.mem_singleton] at hx
      exact ⟨l, by simp, Or.inr hx⟩
    · simp only [mapExceptLast] at hx
      rcases List.mem_cons.1 hx with rfl | hx'
      · exact ⟨l, by simp, Or.inl rfl⟩
      · rcases ih x hx' with ⟨y, hy, hxy⟩
        exact ⟨y, List.mem_cons.2 (Or.inr hy), hxy⟩

theorem dropCR_subset (l : List Char) : ∀ x, x ∈ dropCR l → x ∈ l := by
  intro x hx
  rcases hrev : l.reverse with _ | ⟨c, t⟩
  · simpa [dropCR, hrev] using hx
  · simp only [dropCR, hrev] at hx
    by_cases hc : c = '\r'
    · rw [if_pos hc] at hx
      have hl : l = t.reverse ++ [c] := by
        have h2 := congrArg List.reverse hrev
        simpa using h2
      rw [hl]
      exact List.mem_append.2 (Or.inl hx)
    · rwa [if_neg hc] at hx

theorem mem_splitLines_no_nl (s : List Char) : ∀ l ∈ splitLines s, ¬('\n' ∈ l) := by
  intro l hl
  rcases mem_mapExceptLast dropCR (splitNl s) l hl with ⟨y, hy, hcase⟩
  rcases hcase with rfl | rfl
  · exact fun hm => mem_splitNl_no_nl s y hy (dropCR_subset y '\n' hm)
  · exact mem_splitNl_no_nl s l hy

theorem splitLines_no_nl (s : List Char) (h : ¬('\n' ∈ s)) : splitLines s = [s] := by
  unfold splitLines
  rw [splitNl_no_nl s h]
  rfl

theorem dropWhile_dropWhile (p : Char → Bool) (l : List Char) :
    (l.dropWhile p).dropWhile p = l.dropWhile p := by
  induction l with
  | nil => rfl
  | cons c t ih =>
    by_cases hc : p c
    · simp [List.dropWhile_cons, hc, ih]
    · simp [List.dropWhile_cons, hc]

theorem exists_append_dropWhile (p : Char → Bool) :
    ∀ l : List Char, ∃ u, l = u ++ l.dropWhile p := by
  intro l
  induction l with
  | nil => exact ⟨[], rfl⟩
  | cons c t ih =>
    by_cases hc : p c
    · rcases ih with ⟨u, hu⟩
      exact ⟨c :: u, by simp [List.dropWhile_cons, hc]; exact hu⟩
    · exact ⟨[], by simp [List.dropWhile_cons, hc]⟩

theorem dropWhile_eq_self_of_head (p : Char → Bool) (l : List Char)
    (h : ∀ c, l.head? = some c → p c = false) : l.dropWhile p = l := by
  rcases l with _ | ⟨c, t⟩
  · rfl
  · simp [List.dropWhile_cons, h c rfl]

theorem head?_of_dropWhile_self {p : Char → Bool} {l : List Char} (h : l.dropWhile p = l) :
    ∀ c, l.head? = some c → p c = false := by
  intro c hc
  rcases l with _ | ⟨c0, t⟩
  · simp at hc
  · obtain rfl : c0 = c := by injection hc
    by_cases hp : p c0
    · rw [List.dropWhile_cons, if_pos hp] at h
      have := length_dropWhile_le p t
      have h2 := congrArg List.length h
      simp only [List.length_cons] at h2
      omega
    · simpa using hp

theorem trimRight_append (l : List Char) : ∃ u, l = trimRight l ++ u := by
  rcases exists_append_dropWhile isSpaceJS l.reverse with ⟨u, hu⟩
  refine ⟨u.reverse, ?_⟩
  calc l = l.reverse.reverse := by simp
    _ = (u ++ l.reverse.dropWhile isSpaceJS).reverse := by rw [← hu]
    _ = trimRight l ++ u.reverse := by simp [trimRight]

theorem trim_trim (l : List Char) : trimList (trimList l) = trimList l := by
  unfold trimList
  have hbb : (l.dropWhile isSpaceJS).dropWhile isSpaceJS = l.dropWhile isSpaceJS :=
    dropWhile_dropWhile _ _
  have h1 : (trimRight (l.dropWhile isSpaceJS)).dropWhile isSpaceJS
      = trimRight (l.dropWhile isSpaceJS) := by
    apply dropWhile_eq_self_of_head
    intro c hc
    rcases trimRight_append (l.dropWhile isSpaceJS) with ⟨u, hub⟩
    rcases htr : trimRight (l.dropWhile isSpaceJS) with _ | ⟨c0, m⟩
    · rw [htr] at hc
      simp at hc
    · rw [htr] at hc
      obtain rfl : c0 = c := by injection hc
      have hbcons : l.dropWhile isSpaceJS = c0 :: (m ++ u) := by
        rw [hub, htr]
        simp
      exact head?_of_dropWhile_self hbb c0 (by rw [hbcons]; rfl)
  rw [h1]
  unfold trimRight
  rw [List.reverse_reverse, dropWhile_dropWhile]

theorem trim_subset (l : List Char) : ∀ x, x ∈ trimList l → x ∈ l := by
  intro x hx
  unfold trimList trimRight at hx
  rw [List.mem_reverse] at hx
  have hx2 := (List.dropWhile_sublist isSpaceJS).subset hx
  rw [List.mem_reverse] at hx2
  exact (List.dropWhile_sublist isSpaceJS).subset hx2

theorem findLastCommand_mem {lines : List (List Char)} {r : List Char}
    (h : findLastCommand lines = some r) : ∃ l ∈ lines, r = trimList l := by
  unfold findLastCommand at h
  rw [scanBack_eq] at h
  rcases hf : lines.reverse.find? goodLine with _ | l
  · rw [hf] at h
    simp only [Option.map_none'] at h
    rcases hlast : lines.getLast? with _ | last
    · rw [hlast] at h
      simp at h
    · rw [hlast] at h
      simp only [Option.map_some'] at h
      obtain rfl : trimList last = r := by injection h
      exact ⟨last, List.mem_of_getLast?_eq_some hlast, rfl⟩
  · rw [hf] at h
    simp only [Option.map_some'] at h
    obtain rfl : trimList l = r := by injection h
    exact ⟨l, List.mem_reverse.1 (List.mem_of_find?_eq_some hf), rfl⟩

theorem mem_linesOf {s l : List Char} (h : l ∈ linesOf s) :
    ∃ m ∈ splitLines s, l = trimList m ∧ ¬(l = []) := by
  unfold linesOf at h
  rcases List.mem_filter.1 h with ⟨hmem, hne⟩
  rcases List.mem_map.1 hmem with ⟨m, hm, rfl⟩
  exact ⟨m, hm, rfl, by simpa using hne⟩

theorem sanitize_some_shape (x r : List Char) (h : sanitizeResponse x = some r) :
    r = [] ∨ (¬('\n' ∈ r) ∧ trimList r = r ∧ ¬(r = [])) := by
  unfold sanitizeResponse at h
  by_cases hx : x.isEmpty
  · rw [if_pos hx] at h
    left
    injection h with h'
    exact h'.symm
  · rw [if_neg hx] at h
    by_cases hl : (linesOf (stage2 (stripThink x))).isEmpty
    · rw [if_pos hl] at h
      left
      injection h with h'
      exact h'.symm
    · rw [if_neg hl] at h
      right
      rcases findLastCommand_mem h with ⟨l, hmem, rfl⟩
      rcases mem_linesOf hmem with ⟨m, hm, rfl, hne⟩
      have hnl : ¬('\n' ∈ m) := mem_splitLines_no_nl _ m hm
      refine ⟨?_, ?_, ?_⟩
      · exact fun hmm => hnl (trim_subset _ _ (trim_subset _ _ hmm))
      · rw [trim_trim]
      · rw [trim_trim]
        exact hne

/-- C6: for every input on which `sanitizeResponse` returns (it always does,
see C7), the returned string contains no newline character and carries no
leading or trailing whitespace (it is a single trimmed line or empty). -/
theorem sanitizeResponse_no_newline (s r : List Char) (h : sanitizeResponse s = some r) :
    ¬('\n' ∈ r) ∧ trimList r = r := by
  rcases sanitize_some_shape s r h with rfl | ⟨hnl, htr, _⟩
  · exact ⟨by simp, rfl⟩
  · exact ⟨hnl, htr⟩

/-- Witness for C6: the single-line input `ls` sanitizes to itself, which has
no newline and is already trimmed. -/
theorem sanitizeResponse_no_newline_witness :
    ¬('\n' ∈ (['l', 's'] : List Char)) ∧ trimList ['l', 's'] = ['l', 's'] :=
  sanitizeResponse_no_newline ['l', 's'] ['l', 's'] (by decide)

/-! ## Facts used by the unbounded-output and idempotence claims -/

theorem stripThink_no_lt (s : List Char) (h : ∀ c ∈ s, ¬(c = '<')) : stripThink s = s := by
  have h2 := stripThink_append_no_lt s [] h
  have h0 : stripThink ([] : List Char) = [] := rfl
  rw [h0] at h2
  rw [List.append_nil] at h2
  exact h2

theorem lastMatchedF_no_btick : ∀ (f : Nat) (s : List Char), ¬(btick ∈ s) →
    lastMatchedF f s = none := by
  intro f
  induction f with
  | zero => intro s _; rfl
  | succ f ih =>
    intro s h
    rcases s with _ | ⟨c, t⟩
    · rfl
    · have hc : ¬(c = btick) := fun hc => h (by simp [hc])
      have hm : matchFence (c :: t) = none := by
        simp [matchFence, eatExact, fenceChars, hc]
      simp only [lastMatchedF, hm]
      exact ih t (fun hm' => h (by simp [hm']))

theorem lastMatched_no_btick (s : List Char) (h : ¬(btick ∈ s)) : lastMatched s = none :=
  lastMatchedF_no_btick s.length s h

theorem trim_eq_self_of_no_space (l : List Char) (h : ∀ c ∈ l, isSpaceJS c = false) :
    trimList l = l := by
  unfold trimList
  have h1 : l.dropWhile isSpaceJS = l :=
    dropWhile_eq_self_of_head _ _ (fun c hc => h c (List.mem_of_mem_head? (by rw [hc]; rfl)))
  rw [h1]
  unfold trimRight
  have h2 : l.reverse.dropWhile isSpaceJS = l.reverse :=
    dropWhile_eq_self_of_head _ _ (fun c hc =>
      h c (List.mem_reverse.1 (List.mem_of_mem_head? (by rw [hc]; rfl))))
  rw [h2, List.reverse_reverse]

/-- C10: the 2000-character cap does not bound the output: on the input that is
a single line of 2001 letters `a` (not classified as a sentence, but over the
cap, so the backward scan rejects it and the last-line fallback fires),
`sanitizeResponse` returns that whole line, longer than 2000 characters. -/
theorem sanitize_output_unbounded :
    sanitizeResponse (List.replicate 2001 'a') = some (List.replicate 2001 'a') ∧
    2000 < (List.replicate 2001 'a').length := by
  constructor
  · have hnolt : ∀ c ∈ List.replicate 2001 'a', ¬(c = '<') := by
      intro c hc
      rw [List.mem_replicate] at hc
      rw [hc.2]
      decide
    have hstrip : stripThink (List.replicate 2001 'a') = List.replicate 2001 'a' :=
      stripThink_no_lt _ hnolt
    have hnob : ¬(btick ∈ List.replicate 2001 'a') := by
      rw [List.mem_replicate]
      rintro ⟨-, hb⟩
      exact absurd hb (by decide)
    have hlm : lastMatched (List.replicate 2001 'a') = none := lastMatched_no_btick _ hnob
    have hst2 : stage2 (List.replicate 2001 'a') = List.replicate 2001 'a' := by
      rw [stage2, hlm]
      exact List.filter_eq_self.2 (fun c hc => by
        rw [List.mem_replicate] at hc
        rw [hc.2]
        decide)
    have hnl : ¬('\n' ∈ List.replicate 2001 'a') := by
      rw [List.mem_replicate]
      rintro ⟨-, hb⟩
      exact absurd hb (by decide)
    have hnsp : ∀ c ∈ List.replicate 2001 'a', isSpaceJS c = false := by
      intro c hc
      rw [List.mem_replicate] at hc
      rw [hc.2]
      decide
    have htrim : trimList (List.replicate 2001 'a') = List.replicate 2001 'a' :=
      trim_eq_self_of_no_space _ hnsp
    have hxlen : (List.replicate 2001 'a').length = 2001 := List.length_replicate _ _
    have hxne : ¬(List.replicate 2001 'a' = []) := by
      intro h0
      rw [h0] at hxlen
      exact absurd hxlen (by decide)
    have hxem : (List.replicate 2001 'a').isEmpty = false := by
      rcases hx : List.replicate 2001 'a' with _ | ⟨c, t⟩
      · exact absurd hx hxne
      · rfl
    have hlines : linesOf (List.replicate 2001 'a') = [List.replicate 2001 'a'] := by
      unfold linesOf
      rw [splitLines_no_nl _ hnl, List.map_cons, List.map_nil, htrim, List.filter_cons, hxem]
      simp only [Bool.not_false, if_true, List.filter_nil]
    have hgood : goodLine (List.replicate 2001 'a') = false := by
      unfold goodLine
      have hlen : decide ((List.replicate 2001 'a').length ≤ 2000) = false := by
        rw [hxlen]
        rfl
      rw [hlen, Bool.and_false]
    unfold sanitizeResponse
    rw [hstrip, hst2, hlines]
    rw [if_neg (by rw [hxem]; exact Bool.false_ne_true),
      if_neg (by simp only [List.isEmpty_cons]; exact Bool.false_ne_true)]
    unfold findLastCommand
    rw [scanBack_eq]
    simp only [List.reverse_cons, List.reverse_nil, List.nil_append]
    rw [List.find?_cons_of_neg _ (by rw [hgood]; exact Bool.false_ne_true)]
    simp only [List.find?_nil, Option.map_none', List.getLast?_singleton, Option.map_some',
      htrim]
  · simp only [List.length_replicate]
    omega

/-! ## Equivalence of the two sanitizers -/

theorem lastCodeBlockLoopF_eq : ∀ (f : Nat) (s : List Char) (acc : Option (List Char)),
    IndexTs.lastCodeBlockLoopF f s acc =
      match lastMatchedF f s with
      | some b => some b
      | none => acc := by
  intro f
  induction f with
  | zero => intro s acc; rfl
  | succ f ih =>
    intro s acc
    rcases s with _ | ⟨c, t⟩
    · rfl
    · rcases hm : matchFence (c :: t) with _ | ⟨body, rest⟩
      · simp only [IndexTs.lastCodeBlockLoopF, lastMatchedF, hm]
        exact ih t acc
      · simp only [IndexTs.lastCodeBlockLoopF, lastMatchedF, hm]
        rw [ih rest (some body)]
        rcases lastMatchedF f rest with _ | b <;> rfl

theorem lastCodeBlock_eq (s : List Char) : IndexTs.lastCodeBlock s = lastMatched s := by
  unfold IndexTs.lastCodeBlock lastMatched
  rw [lastCodeBlockLoopF_eq]
  rcases lastMatchedF s.length s with _ | b <;> rfl

theorem stage2_index_eq (s : List Char) : IndexTs.stage2 s = stage2 s := by
  unfold IndexTs.stage2 stage2
  rw [lastCodeBlock_eq]

/-- C9: the `sanitizeResponse` of `command_generator.ts` and the inlined
`sanitizeResponse` of `index.ts` compute the same function: the explicit
last-code-block `while` loop agrees with `lastMatched`, the `if (lastCodeBlock)`
truthiness test agrees with the `||` fallback, and the final backward scans are
identical. -/
theorem sanitizeResponse_equiv_index (s : List Char) :
    IndexTs.sanitizeResponse s = sanitizeResponse s := by
  unfold IndexTs.sanitizeResponse sanitizeResponse
  rw [stage2_index_eq (stripThink s)]
  rfl

/-! ## Idempotence -/

/-- A provider output consisting of one fenced block whose body line contains
inline (single) backticks. -/
def fencedInlineInput : List Char :=
  fenceChars ++ '\n' :: (btick :: 'a' :: btick :: ' ' :: 'b' :: '\n' :: fenceChars)

/-- The sanitized result of `fencedInlineInput`: the extracted line, inline
backticks kept. -/
def fencedInlineOutput : List Char := btick :: 'a' :: btick :: ' ' :: 'b' :: []

/-- Counterexample for C8 as stated: this output of `sanitizeResponse` is
non-empty, contains no fenced code block (a fence needs a newline, and outputs
have none), no think tag, and no sentence marker, yet sanitizing it again
strips its inline backticks and yields a different string. -/
theorem sanitize_idempotence_cex :
    sanitizeResponse fencedInlineInput = some fencedInlineOutput ∧
    ¬(fencedInlineOutput = []) ∧
    lastMatched fencedInlineOutput = none ∧
    ((List.range (fencedInlineOutput.length + 1)).all
      fun i => (matchOpenTag (fencedInlineOutput.drop i)).isNone) = true ∧
    looksLikeSentence fencedInlineOutput = false ∧
    ¬(sanitizeResponse fencedInlineOutput = some fencedInlineOutput) := by
  decide

/-- C8 (amended): `sanitizeResponse` is idempotent on already-clean output once
clean additionally means backtick-free: whenever `sanitizeResponse x` is a
non-empty string `r` with no think-tag match at any position, no backtick
character (hence no fenced block), and no sentence classification,
`sanitizeResponse r = some r`. -/
theorem sanitize_idempotent_clean (x r : List Char)
    (hx : sanitizeResponse x = some r)
    (hne : ¬(r = []))
    (hnt : ((List.range (r.length + 1)).all fun i => (matchOpenTag (r.drop i)).isNone) = true)
    (hnb : ¬(btick ∈ r))
    (hns : looksLikeSentence r = false) :
    sanitizeResponse r = some r := by
  rcases sanitize_some_shape x r hx with rfl | ⟨hnl, htr, _⟩
  · exact absurd rfl hne
  · have h1 : stripThink r = r := stripThinkF_no_open r.length r (noOpenAll_to_forall hnt)
    have h2 : stage2 r = r := by
      rw [stage2, lastMatched_no_btick r hnb]
      exact List.filter_eq_self.2 (fun c hc => by
        have hcb : ¬(c = btick) := fun he => hnb (he ▸ hc)
        simp [hcb])
    have hrem : r.isEmpty = false := by
      rcases r with _ | ⟨c, t⟩
      · exact absurd rfl hne
      · rfl
    have hlines : linesOf r = [r] := by
      unfold linesOf
      rw [splitLines_no_nl r hnl, List.map_cons, List.map_nil, htr, List.filter_cons, hrem]
      simp only [Bool.not_false, if_true, List.filter_nil]
    unfold sanitizeResponse
    rw [h1, h2, hlines]
    rw [if_neg (by rw [hrem]; exact Bool.false_ne_true),
      if_neg (by simp only [List.isEmpty_cons]; exact Bool.false_ne_true)]
    unfold findLastCommand
    rw [scanBack_eq]
    simp only [List.reverse_cons, List.reverse_nil, List.nil_append]
    by_cases hg : goodLine r
    · rw [List.find?_cons_of_pos _ hg]
      simp only [Option.map_some', htr]
    · rw [List.find?_cons_of_neg _ hg]
      simp only [List.find?_nil, Option.map_none', List.getLast?_singleton, Option.map_some',
        htr]

/-- Witness for C8 (amended): `ls -la` sanitizes to itself, satisfies every
cleanliness hypothesis, and sanitizing again returns it unchanged. -/
theorem sanitize_idempotent_clean_witness :
    sanitizeResponse "ls -la".toList = some "ls -la".toList :=
  sanitize_idempotent_clean "ls -la".toList "ls -la".toList (by decide) (by decide) (by decide)
    (by decide) (by decide)

/-! ## Characterisation of the sentence classifier -/

theorem keywordAt_iff (s w : List Char) :
    keywordAt s w = true ↔
      ∃ occ suf, s = occ ++ suf ∧ occ.map Char.toLower = w.map Char.toLower ∧
        headIsWord suf = false := by
  rcases he : eatCI w s with _ | rest
  · simp only [keywordAt, he, Bool.false_eq_true, false_iff]
    rintro ⟨occ, suf, hs, hm, hb⟩
    have h2 := (eatCI_eq_some_iff w s suf).2 ⟨occ, hs, hm⟩
    rw [he] at h2
    cases h2
  · simp only [keywordAt, he, Bool.not_eq_true']
    constructor
    · intro h
      rcases (eatCI_eq_some_iff w s rest).1 he with ⟨occ, hs, hm⟩
      exact ⟨occ, rest, hs, hm, h⟩
    · rintro ⟨occ, suf, hs, hm, hb⟩
      have h2 := (eatCI_eq_some_iff w s suf).2 ⟨occ, hs, hm⟩
      rw [he] at h2
      obtain rfl : rest = suf := by injection h2
      exact hb

theorem keywordHereAux_iff (s : List Char) :
    keywordHereAux s = true ↔
      ∃ w ∈ sentenceWords, ∃ occ suf, s = occ ++ suf ∧
        occ.map Char.toLower = w.map Char.toLower ∧ headIsWord suf = false := by
  unfold keywordHereAux
  rw [List.any_eq_true]
  constructor
  · rintro ⟨w, hw, hk⟩
    exact ⟨w, hw, (keywordAt_iff s w).1 hk⟩
  · rintro ⟨w, hw, hdec⟩
    exact ⟨w, hw, (keywordAt_iff s w).2 hdec⟩

theorem sentenceWords_ne_nil : ∀ w ∈ sentenceWords, ¬(w = []) := by
  intro w hw
  simp only [sentenceWords, List.mem_cons, List.not_mem_nil, or_false] at hw
  rcases hw with rfl | rfl | rfl | rfl | rfl | rfl | rfl | rfl <;> simp

theorem containsKeywordFrom_iff : ∀ (s : List Char) (prev : Bool),
    containsKeywordFrom prev s = true ↔
      ∃ pre occ suf w, w ∈ sentenceWords ∧ s = pre ++ (occ ++ suf) ∧
        occ.map Char.toLower = w.map Char.toLower ∧
        ((pre = [] ∧ prev = false) ∨ ∃ c, pre.getLast? = some c ∧ isWordChar c = false) ∧
        headIsWord suf = false := by
  intro s
  induction s with
  | nil =>
    intro prev
    constructor
    · intro h
      have hka : keywordHereAux [] = false := by decide
      simp only [containsKeywordFrom, hka, Bool.and_false] at h
      cases h
    · rintro ⟨pre, occ, suf, w, hw, hs, hm, hbnd, hhw⟩
      have h0 := hs.symm
      rw [List.append_eq_nil] at h0
      rcases h0 with ⟨hpre, h1⟩
      rw [List.append_eq_nil] at h1
      rcases h1 with ⟨hocc, hsuf⟩
      subst hocc
      have hw0 : w.map Char.toLower = [] := hm.symm
      rw [List.map_eq_nil_iff] at hw0
      exact absurd hw0 (sentenceWords_ne_nil w hw)
  | cons c t ih =>
    intro prev
    simp only [containsKeywordFrom, Bool.or_eq_true, Bool.and_eq_true, Bool.not_eq_true']
    constructor
    · rintro (⟨hprev, hka⟩ | hrec)
      · rcases (keywordHereAux_iff _).1 hka with ⟨w, hw, occ, suf, hs, hm, hb⟩
        exact ⟨[], occ, suf, w, hw, by simpa using hs, hm, Or.inl ⟨rfl, hprev⟩, hb⟩
      · rcases (ih (isWordChar c)).1 hrec with ⟨pre, occ, suf, w, hw, hs, hm, hbnd, hhw⟩
        refine ⟨c :: pre, occ, suf, w, hw, by simp [hs], hm, ?_, hhw⟩
        rcases hbnd with ⟨rfl, hpw⟩ | ⟨d, hd, hdw⟩
        · exact Or.inr ⟨c, by simp, hpw⟩
        · rcases pre with _ | ⟨p0, pre'⟩
          · simp at hd
          · exact Or.inr ⟨d, by rw [List.getLast?_cons_cons]; exact hd, hdw⟩
    · rintro ⟨pre, occ, suf, w, hw, hs, hm, hbnd, hhw⟩
      rcases pre with _ | ⟨p0, pre'⟩
      · left
        have hprev : prev = false := by
          rcases hbnd with ⟨-, h0⟩ | ⟨d, hd, -⟩
          · exact h0
          · simp at hd
        refine ⟨hprev, ?_⟩
        apply (keywordHereAux_iff _).2
        exact ⟨w, hw, occ, suf, by simpa using hs, hm, hhw⟩
      · right
        simp only [List.cons_append, List.cons.injEq] at hs
        obtain ⟨rfl, hts⟩ := hs
        apply (ih (isWordChar c)).2
        refine ⟨pre', occ, suf, w, hw, hts, hm, ?_, hhw⟩
        rcases pre' with _ | ⟨q, pre''⟩
        · left
          refine ⟨rfl, ?_⟩
          rcases hbnd with ⟨hpre, -⟩ | ⟨d, hd, hdw⟩
          · cases hpre
          · simp only [List.getLast?_singleton] at hd
            obtain rfl : c = d := by injection hd
            exact hdw
        · right
          rcases hbnd with ⟨hpre, -⟩ | ⟨d, hd, hdw⟩
          · cases hpre
          · refine ⟨d, ?_, hdw⟩
            rw [List.getLast?_cons_cons] at hd
            exact hd

theorem containsKeyword_iff (line : List Char) :
    containsKeyword line = true ↔
      ∃ pre occ suf w, w ∈ sentenceWords ∧ line = pre ++ (occ ++ suf) ∧
        occ.map Char.toLower = w.map Char.toLower ∧
        (∀ c, pre.getLast? = some c → isWordChar c = false) ∧
        (∀ c, suf.head? = some c → isWordChar c = false) := by
  unfold containsKeyword
  rw [containsKeywordFrom_iff]
  constructor
  · rintro ⟨pre, occ, suf, w, hw, hs, hm, hbnd, hhw⟩
    refine ⟨pre, occ, suf, w, hw, hs, hm, ?_, ?_⟩
    · intro c hc
      rcases hbnd with ⟨rfl, -⟩ | ⟨d, hd, hdw⟩
      · simp at hc
      · rw [hd] at hc
        obtain rfl : d = c := by injection hc
        exact hdw
    · intro c hc
      rcases suf with _ | ⟨s0, suf'⟩
      · simp at hc
      · obtain rfl : s0 = c := by injection hc
        simpa [headIsWord] using hhw
  · rintro ⟨pre, occ, suf, w, hw, hs, hm, hlast, hhead⟩
    refine ⟨pre, occ, suf, w, hw, hs, hm, ?_, ?_⟩
    · rcases hpre : pre.getLast? with _ | d
      · left
        exact ⟨List.getLast?_eq_none_iff.1 hpre, rfl⟩
      · exact Or.inr ⟨d, rfl, hlast d hpre⟩
    · rcases suf with _ | ⟨s0, suf'⟩
      · rfl
      · simpa [headIsWord] using hhead s0 rfl

theorem sentencePunct_not_upper {c : Char} (hu : c.isUpper = true) :
    sentencePunct c = false := by
  by_contra hp
  have hp' : sentencePunct c = true := by
    cases hval : sentencePunct c
    · exact absurd hval hp
    · rfl
  simp only [sentencePunct, Bool.or_eq_true, decide_eq_true_eq, or_assoc] at hp'
  rcases hp' with rfl | rfl | rfl <;> exact absurd hu (by decide)

theorem sentenceShape_iff (line : List Char) (h : ¬(line.getLast? = some '\n')) :
    sentenceShape line = true ↔
      ∃ c mid d, line = c :: (mid ++ [d]) ∧ c.isUpper = true ∧
        (d = '.' ∨ d = '?' ∨ d = '!') := by
  rcases line with _ | ⟨c, rest⟩
  · simp [sentenceShape]
  · rcases hrev : (c :: rest).reverse with _ | ⟨d, ds⟩
    · exact absurd hrev (by simp)
    · have hline : c :: rest = ds.reverse ++ [d] := by
        have h2 := congrArg List.reverse hrev
        simpa using h2
      have hlast : (c :: rest).getLast? = some d := by
        rw [List.getLast?_eq_head?_reverse, hrev]
        rfl
      have hd : ¬(d = '\n') := fun hdeq => h (by rw [hlast, hdeq])
      have hshape : sentenceShape (c :: rest) = (c.isUpper && sentencePunct d) := by
        simp only [sentenceShape, hrev]
        have hdd : (decide (d = '\n')) = false := by simp [hd]
        rw [hdd, Bool.false_and, Bool.or_false]
      rw [hshape]
      constructor
      · intro hb
        rw [Bool.and_eq_true] at hb
        rcases hb with ⟨hup, hpunct⟩
        rcases hds : ds.reverse with _ | ⟨c0, mid⟩
        · rw [hds] at hline
          simp only [List.nil_append, List.cons.injEq] at hline
          obtain ⟨rfl, rfl⟩ := hline
          rw [sentencePunct_not_upper hup] at hpunct
          cases hpunct
        · rw [hds] at hline
          simp only [List.cons_append, List.cons.injEq] at hline
          obtain ⟨rfl, hrest⟩ := hline
          refine ⟨c, mid, d, by rw [hrest], hup, ?_⟩
          simpa [sentencePunct, Bool.or_eq_true, decide_eq_true_eq, or_assoc] using hpunct
      · rintro ⟨c', mid, d', hline', hup, hpunct⟩
        have hc' : c = c' := by
          have := hline'
          simp only [List.cons.injEq] at this
          exact this.1
        have hlast' : (c :: rest).getLast? = some d' := by
          rw [hline']
          rw [show c' :: (mid ++ [d']) = (c' :: mid) ++ [d'] from by simp,
            List.getLast?_concat]
        have hdd' : d = d' := by
          rw [hlast] at hlast'
          injection hlast'
        subst hdd'
        subst hc'
        rw [hup, Bool.true_and]
        rcases hpunct with rfl | rfl | rfl <;> rfl

/-- C4: a line (with no trailing newline — which holds for every trimmed
`Line` the program classifies) is classified as looking like a sentence if and
only if it either decomposes as an uppercase first character with a final `.`,
`?`, or `!`, or it contains, case-insensitively and delimited by word
boundaries, an occurrence of one of the eight keywords of the classifier
(`user`, `want`, `should`, `shouldn` + apostrophe + `t`, `think`, `explain`,
`error`, `note`). -/
theorem looksLikeSentence_iff (line : List Char) (h : ¬(line.getLast? = some '\n')) :
    looksLikeSentence line = true ↔
      ((∃ c mid d, line = c :: (mid ++ [d]) ∧ c.isUpper = true ∧
          (d = '.' ∨ d = '?' ∨ d = '!')) ∨
       (∃ pre occ suf w, w ∈ sentenceWords ∧ line = pre ++ (occ ++ suf) ∧
         occ.map Char.toLower = w.map Char.toLower ∧
         (∀ c, pre.getLast? = some c → isWordChar c = false) ∧
         (∀ c, suf.head? = some c → isWordChar c = false))) := by
  unfold looksLikeSentence
  rw [Bool.or_eq_true, sentenceShape_iff line h, containsKeyword_iff]

/-- Witness for C4: the classifier applied to the trimmed line `Run it.`
(classified as a sentence via the uppercase/punctuation shape). -/
theorem looksLikeSentence_iff_witness :
    looksLikeSentence "Run it.".toList = true ↔
      ((∃ c mid d, "Run it.".toList = c :: (mid ++ [d]) ∧ c.isUpper = true ∧
          (d = '.' ∨ d = '?' ∨ d = '!')) ∨
       (∃ pre occ suf w, w ∈ sentenceWords ∧ "Run it.".toList = pre ++ (occ ++ suf) ∧
         occ.map Char.toLower = w.map Char.toLower ∧
         (∀ c, pre.getLast? = some c → isWordChar c = false) ∧
         (∀ c, suf.head? = some c → isWordChar c = false))) :=
  looksLikeSentence_iff "Run it.".toList (by decide)
